import Mathlib

/-!
Shallow embedding of the staging-path security guard found in
`app/mcp/security.py` (the validators `validate_project_id`,
`validate_filename`, `validate_repo_url`, the ignore-pattern matcher
`_matches_ignore_pattern` and the path guard `get_safe_staging_path`),
together with theorems settling the specification's claims about it.

Strings are modelled as `List Char` internally.  The Python `str`
operations used by the source (`strip`, `replace`, `split('/')`,
substring tests, `re.match` against the two anchored character-class
patterns, `fnmatch.fnmatch`) are given explicit executable definitions.
Note that Python's `$` anchor also matches just before a single trailing
newline; the regex models below keep that behaviour.

The filesystem visible to `Path.resolve` and `Path.is_symlink` is
modelled as a map from absolute paths (whose parent chain is already
resolved) to symlink targets; `resolve` follows links with bounded fuel,
mirroring non-strict `Path.resolve`, and `is_symlink` resolves the
parent chain first, mirroring `lstat` semantics (errors that `pathlib`
swallows, such as a failed parent resolution, yield `false`).
-/

namespace Snap

/-- Error kinds of the guard: `format` models `ValidationError`,
`security` models `SecurityError`, and `raw` models a raw OS exception
escaping uncaught (possible in the source only at the unguarded
`project_staging.resolve()` call). -/
inductive Err where
  | format : Err
  | security : Err
  | raw : Err
deriving DecidableEq

/-- Result of a validator: the Python return value or the raised error. -/
inductive Res (α : Type) where
  | ok : α → Res α
  | error : Err → Res α
deriving DecidableEq

/-- Rebuild a `String` from its character list. -/
def ofL (l : List Char) : String := ⟨l⟩

/-- Characters stripped by Python `str.strip()` (ASCII whitespace). -/
def isSpace (c : Char) : Bool :=
  c == ' ' || c == '\t' || c == '\n' || c == '\x0d' || c == '\x0b' || c == '\x0c'

/-- Model of Python `str.strip()`. -/
def pyStripL (l : List Char) : List Char :=
  ((l.dropWhile isSpace).reverse.dropWhile isSpace).reverse

/-- Model of Python `str.strip()` at the `String` level. -/
def pyStrip (s : String) : String := ofL (pyStripL s.toList)

/-- Model of `filename.replace('\\', '/')`. -/
def replBackslashL (l : List Char) : List Char :=
  l.map (fun c => if c = '\\' then '/' else c)

/-- Model of `str.strip('/')`. -/
def stripSlashL (l : List Char) : List Char :=
  ((l.dropWhile (· == '/')).reverse.dropWhile (· == '/')).reverse

/-- Model of `str.rstrip('/')`. -/
def rstripSlashL (l : List Char) : List Char :=
  (l.reverse.dropWhile (· == '/')).reverse

/-- Boolean prefix test (model of `str.startswith` on character lists). -/
def isPreOf [DecidableEq α] : List α → List α → Bool
  | [], _ => true
  | _ :: _, [] => false
  | a :: as, b :: bs => if a = b then isPreOf as bs else false

/-- Boolean substring test (model of Python `p in s`). -/
def hasSub [DecidableEq α] (p : List α) : List α → Bool
  | [] => p.isEmpty
  | b :: bs => isPreOf p (b :: bs) || hasSub p bs

/-- Model of Python `str.split('/')`: keeps empty pieces, `"" ↦ [""]`. -/
def splitSlash : List Char → List (List Char)
  | [] => [[]]
  | c :: rest =>
    if c = '/' then [] :: splitSlash rest
    else
      match splitSlash rest with
      | [] => [[c]]
      | h :: t => (c :: h) :: t

/-- Character class `[a-zA-Z0-9._-]` (first character of `VALID_FILENAME`). -/
def isC1 (c : Char) : Bool :=
  c.isAlpha || c.isDigit || c == '.' || c == '_' || c == '-'

/-- Character class of the remaining `VALID_FILENAME` characters:
`isC1` plus the slash. -/
def isC2 (c : Char) : Bool := isC1 c || c == '/'

/-- Character class `[a-zA-Z0-9_-]` of `VALID_PROJECT_ID`. -/
def isPidChar (c : Char) : Bool :=
  c.isAlpha || c.isDigit || c == '_' || c == '-'

/-- Plain full match of the anchored `VALID_FILENAME` pattern (one `isC1`
character, then up to 254 `isC2` characters) without the trailing-newline
allowance of Python's `$`. -/
def vfCore : List Char → Bool
  | [] => false
  | c :: rest => isC1 c && rest.all isC2 && decide (rest.length ≤ 254)

/-- Model of `VALID_FILENAME.match(s)` being truthy: Python's `$` also
matches just before one trailing newline. -/
def vfMatch (l : List Char) : Bool :=
  vfCore l || (l.getLast? == some '\n' && vfCore l.dropLast)

/-- Plain full match of `^[a-zA-Z0-9_-]{3,64}$`. -/
def pidCore (l : List Char) : Bool :=
  l.all isPidChar && decide (3 ≤ l.length) && decide (l.length ≤ 64)

/-- Model of `VALID_PROJECT_ID.match(s)` being truthy (with the
trailing-newline allowance of `$`). -/
def pidMatch (l : List Char) : Bool :=
  pidCore l || (l.getLast? == some '\n' && pidCore l.dropLast)

/-- The `FORBIDDEN_PATTERNS` list from the source. -/
def FORBIDDEN_PATTERNS : List (List Char) :=
  [['.', '.'], ['\x00'], ['~'], [':'], ['*'], ['?'], ['"'], ['<'], ['>'], ['|']]

/-- The `RESERVED_NAMES` set from the source. -/
def RESERVED_NAMES : List String :=
  ["con", "prn", "aux", "nul",
   "com1", "com2", "com3", "com4", "com5", "com6", "com7", "com8", "com9",
   "lpt1", "lpt2", "lpt3", "lpt4", "lpt5", "lpt6", "lpt7", "lpt8", "lpt9"]

/-- The dotfile allowlist `('.gitignore', '.gitattributes')` from the source. -/
def ALLOWED_DOTFILES : List String := [".gitignore", ".gitattributes"]

/-- Model of Python `str.lower()` (ASCII). -/
def lowerL (l : List Char) : List Char := l.map Char.toLower

/-- Shell-glob matcher for `fnmatch.fnmatch` restricted to the literal,
`*` and `?` constructs (all patterns used here stay in this fragment).
Each recursive call shrinks the pattern or the string, so a fuel of
`pattern length + string length + 1` makes the fuel case unreachable;
the fuel keeps the recursion structural. -/
def globMatchF : Nat → List Char → List Char → Bool
  | 0, _, _ => false
  | _ + 1, [], [] => true
  | _ + 1, [], _ :: _ => false
  | n + 1, '*' :: ps, s =>
    globMatchF n ps s ||
      (match s with
       | [] => false
       | _ :: s' => globMatchF n ('*' :: ps) s')
  | n + 1, '?' :: ps, s =>
    (match s with
     | [] => false
     | _ :: s' => globMatchF n ps s')
  | n + 1, p :: ps, s =>
    (match s with
     | [] => false
     | c :: s' => p == c && globMatchF n ps s')

/-- Model of `fnmatch.fnmatch(name, pattern)` on POSIX. -/
def fnmatch (name pat : String) : Bool :=
  globMatchF (pat.toList.length + name.toList.length + 1) pat.toList name.toList

/-- Modelled from the spec: the glob list `IGNORE_PATTERNS` is imported
from `app.ingest.local_loader`, which is not part of this repository
snapshot.  The spec describes it as an externally owned list of
secret/credential filename patterns and requires `.env`, `id_rsa` and
`secret.pem` to be matched, with patterns targeting a bare filename, a
directory segment and a full path. -/
def IGNORE_PATTERNS : List String :=
  [".env", ".env.*", "id_rsa", "id_rsa.*", "*.pem", "*.key", "credentials"]

/-- Model of `Path(filename).parts` for the relative, slash-separated
strings this code passes in (duplicate slashes and `.` segments vanish). -/
def pathParts (s : String) : List String :=
  ((splitSlash s.toList).map ofL).filter (fun p => p ≠ "" && p ≠ ".")

/-- Model of `Path(filename).name`. -/
def pathFinalName (s : String) : String := (pathParts s).getLastD ""

/-- Model of `_matches_ignore_pattern`: match each part, the full path
and the final name against every ignore pattern. -/
def matches_ignore_pattern (s : String) : Bool :=
  IGNORE_PATTERNS.any (fun pat =>
    (pathParts s).any (fun part => fnmatch part pat) ||
      fnmatch s pat || fnmatch (pathFinalName s) pat)

/-- Model of `validate_project_id`. -/
def validate_project_id (s : String) : Res String :=
  if s = "" then .error .format
  else if ¬ pidMatch (pyStripL s.toList) then .error .format
  else if (pyStripL s.toList).head? == some '-' ||
      (pyStripL s.toList).head? == some '.' then .error .format
  else if RESERVED_NAMES.contains (ofL (lowerL (pyStripL s.toList))) then .error .format
  else .ok (ofL (pyStripL s.toList))

/-- Normalization stage of `validate_filename`: `strip`, backslash to
slash, then strip slashes. -/
def normFilenameL (s : String) : List Char :=
  stripSlashL (replBackslashL (pyStripL s.toList))

/-- Per-component check of `validate_filename`'s split loop: nonempty,
not a reserved device name, and the hidden-directory rule. -/
def componentOk (p : List Char) : Bool :=
  !p.isEmpty &&
    !(RESERVED_NAMES.contains (ofL (lowerL p))) &&
    (!(p.head? == some '.') || ALLOWED_DOTFILES.contains (ofL p) ||
      (p.drop 1).contains '.')

/-- Model of `validate_filename`. -/
def validate_filename (s : String) : Res String :=
  if s = "" then .error .format
  else if normFilenameL s = [] then .error .format
  else if FORBIDDEN_PATTERNS.any (fun p => hasSub p (normFilenameL s)) then .error .security
  else if ¬ vfMatch (normFilenameL s) then .error .format
  else if ¬ (splitSlash (normFilenameL s)).all componentOk then .error .format
  else if matches_ignore_pattern (ofL (normFilenameL s)) then .error .format
  else .ok (ofL (normFilenameL s))

/-- The literal prefix `https://github.com/` checked by `validate_repo_url`. -/
def GH_PRE : List Char := "https://github.com/".toList

/-- Worker of `replaceAllL`: every step consumes at least one character,
so a fuel equal to the string length suffices; the fuel keeps the
recursion structural. -/
def replaceAllF (p r : List Char) : Nat → List Char → List Char
  | _, [] => []
  | 0, l => l
  | n + 1, c :: rest =>
    if p ≠ [] ∧ isPreOf p (c :: rest) = true
    then r ++ replaceAllF p r n ((c :: rest).drop p.length)
    else c :: replaceAllF p r n rest

/-- Model of Python `str.replace(p, r)` (left-to-right, non-overlapping).
For empty `p` the call never happens in the source; we leave the string
unchanged in that case. -/
def replaceAllL (p r l : List Char) : List Char := replaceAllF p r l.length l

/-- Model of `validate_repo_url`. -/
def validate_repo_url (s : String) : Res String :=
  if s = "" then .error .format
  else if ¬ isPreOf GH_PRE (pyStripL s.toList) then .error .format
  else if (splitSlash (rstripSlashL (replaceAllL GH_PRE [] (pyStripL s.toList)))).length < 2 then
    .error .format
  else .ok (ofL (pyStripL s.toList))

/-- Filesystem state: `link p` is the (absolute) target of the symbolic
link at `p`, or `none` when `p` is not a symlink.  Paths are absolute
component lists; `link` is meaningful on paths whose parent chain is
already resolved, which is how both `resolve` and `is_symlink` query it. -/
structure FS where
  link : List String → Option (List String)

/-- Fuel bound for symlink chains, standing in for the OS loop limit. -/
def resolveFuel : Nat := 40

/-- Worker of `resolve`: processes the remaining components `rest` on top
of the already-resolved `acc`, handling `.` and `..` lexically and
following symlinks (restarting on their absolute target).  One unit of
fuel is consumed per processed component; exhausting the fuel models the
symlink-loop `OSError` of `Path.resolve`.  Returns the resolved path and
the remaining fuel. -/
def resolveStep (fs : FS) : Nat → List String → List String → Option (List String × Nat)
  | fuel, acc, [] => some (acc, fuel)
  | 0, _, _ :: _ => none
  | Nat.succ f, acc, c :: rest =>
    if c = "." then resolveStep fs f acc rest
    else if c = ".." then resolveStep fs f acc.dropLast rest
    else
      match fs.link (acc ++ [c]) with
      | none => resolveStep fs f (acc ++ [c]) rest
      | some t => resolveStep fs f [] (t ++ rest)

/-- Model of non-strict `Path.resolve()`. -/
def resolve (fs : FS) (p : List String) : Option (List String) :=
  (resolveStep fs resolveFuel [] p).map Prod.fst

/-- Model of `Path.is_symlink()`: `lstat` resolves the parent chain, then
looks at the final component; errors pathlib swallows give `false`. -/
def is_symlink (fs : FS) (p : List String) : Bool :=
  match p.getLast? with
  | none => false
  | some c =>
    match resolve fs p.dropLast with
    | none => false
    | some d => (fs.link (d ++ [c])).isSome

/-- Worker of `walkHasSymlink`.  Each iteration drops the last path
component, so a fuel larger than the path length suffices; the fuel
keeps the recursion structural. -/
def walkF (fs : FS) (root : List String) : Nat → List String → Bool
  | 0, _ => false
  | n + 1, cur =>
    if cur = root then false
    else if is_symlink fs cur then true
    else if cur.dropLast = cur then false
    else walkF fs root n cur.dropLast

/-- Model of the upward symlink walk of `get_safe_staging_path`: from the
unresolved candidate, check each path for being a symlink until reaching
`staging_root` (or the filesystem root). -/
def walkHasSymlink (fs : FS) (root : List String) (cur : List String) : Bool :=
  walkF fs root (cur.length + 1) cur

/-- The process-wide staging root `settings.data_dir / "staging"`. -/
def stagingRoot (data_dir : List String) : List String := data_dir ++ ["staging"]

/-- The per-project directory `staging_root / project_id`. -/
def projectStagingDir (data_dir : List String) (pid : String) : List String :=
  stagingRoot data_dir ++ [pid]

/-- Components of a validated relative filename, as produced by joining
it onto a `Path` with `/`. -/
def splitSlashStr (s : String) : List String := (splitSlash s.toList).map ofL

/-- Model of `get_safe_staging_path`: validate both inputs, build the
candidate path, resolve it (failure caught as a security error), resolve
the project directory (failure uncaught in the source: `Err.raw`), require
the resolved candidate to extend the resolved project directory, then run
the upward symlink walk. -/
def get_safe_staging_path (fs : FS) (data_dir : List String)
    (project_id filename : String) : Res (List String) :=
  match validate_project_id project_id with
  | .error e => .error e
  | .ok pid =>
    match validate_filename filename with
    | .error e => .error e
    | .ok fname =>
      match resolve fs (projectStagingDir data_dir pid ++ splitSlashStr fname) with
      | none => .error .security
      | some resolved =>
        match resolve fs (projectStagingDir data_dir pid) with
        | none => .error .raw
        | some psr =>
          if ¬ isPreOf psr resolved then .error .security
          else if walkHasSymlink fs (stagingRoot data_dir)
              (projectStagingDir data_dir pid ++ splitSlashStr fname) then .error .security
          else .ok resolved

/-- A filesystem with no symbolic links at all. -/
def fsEmpty : FS := ⟨fun _ => none⟩

/-- A filesystem whose only symlink sits at an intermediate directory
inside the `abc` project tree. -/
def fsMid : FS :=
  ⟨fun p => if p = ["d", "staging", "abc", "lib"] then some ["d", "staging", "other"] else none⟩

/-- A filesystem whose only symlink is the candidate file itself. -/
def fsLeaf : FS :=
  ⟨fun p => if p = ["d", "staging", "abc", "a.py"] then some ["d", "staging", "x"] else none⟩

/-! Bridging lemmas between the boolean string operations and their
propositional counterparts. -/

theorem isPreOf_iff [DecidableEq α] {l₁ l₂ : List α} :
    isPreOf l₁ l₂ = true ↔ l₁ <+: l₂ := by
  induction l₁ generalizing l₂ with
  | nil => simp [isPreOf]
  | cons a as ih =>
    cases l₂ with
    | nil => simp [isPreOf]
    | cons b bs =>
      by_cases hab : a = b
      · subst hab
        simp [isPreOf, ih, List.cons_prefix_cons]
      · simp [isPreOf, hab, List.cons_prefix_cons]

theorem hasSub_iff [DecidableEq α] {p l : List α} :
    hasSub p l = true ↔ p <:+: l := by
  induction l with
  | nil => simp [hasSub, List.isEmpty_iff, List.infix_nil]
  | cons b bs ih =>
    simp [hasSub, ih, isPreOf_iff, List.infix_cons_iff]

theorem hasSub_singleton_iff [DecidableEq α] {a : α} {l : List α} :
    hasSub [a] l = true ↔ a ∈ l := by
  rw [hasSub_iff]
  constructor
  · intro h
    exact (List.singleton_sublist).mp h.sublist
  · intro h
    obtain ⟨s, t, rfl⟩ := List.append_of_mem h
    exact ⟨s, t, by simp⟩

/-! Structural lemmas about `splitSlash` and the stripping operations. -/

theorem splitSlash_nil : splitSlash [] = [[]] := rfl

theorem splitSlash_cons_slash (l : List Char) :
    splitSlash ('/' :: l) = [] :: splitSlash l := by
  simp [splitSlash]

theorem splitSlash_ne_nil (l : List Char) : splitSlash l ≠ [] := by
  cases l with
  | nil => simp [splitSlash]
  | cons c rest =>
    by_cases h : c = '/'
    · simp [splitSlash, h]
    · simp only [splitSlash, h, if_false]
      cases hs : splitSlash rest <;> simp

theorem splitSlash_cons_ne {c : Char} {l : List Char} (hc : c ≠ '/')
    {h : List Char} {t : List (List Char)} (hs : splitSlash l = h :: t) :
    splitSlash (c :: l) = (c :: h) :: t := by
  simp only [splitSlash, hs]
  rw [if_neg hc]

theorem splitSlash_eq_single_nil {l : List Char} (h : splitSlash l = [[]]) : l = [] := by
  cases l with
  | nil => rfl
  | cons c rest =>
    exfalso
    by_cases hc : c = '/'
    · subst hc
      rw [splitSlash_cons_slash] at h
      simp only [List.cons.injEq] at h
      exact splitSlash_ne_nil rest h.2
    · cases hs : splitSlash rest with
      | nil => exact splitSlash_ne_nil rest hs
      | cons a t =>
        rw [splitSlash_cons_ne hc hs] at h
        simp at h

theorem splitSlash_parts : ∀ l : List Char,
    ∃ h t, splitSlash l = h :: t ∧ h <+: l ∧ ∀ p ∈ t, p <:+: l := by
  intro l
  induction l with
  | nil => exact ⟨[], [], rfl, List.nil_prefix, by simp⟩
  | cons c rest ih =>
    obtain ⟨h', t', hsplit, hpre, hinf⟩ := ih
    by_cases hc : c = '/'
    · subst hc
      refine ⟨[], splitSlash rest, splitSlash_cons_slash rest, List.nil_prefix, ?_⟩
      intro p hp
      rw [hsplit] at hp
      rcases List.mem_cons.mp hp with rfl | hp
      · exact List.infix_cons hpre.isInfix
      · exact List.infix_cons (hinf p hp)
    · refine ⟨c :: h', t', splitSlash_cons_ne hc hsplit, ?_, ?_⟩
      · exact List.cons_prefix_cons.mpr ⟨rfl, hpre⟩
      · exact fun p hp => List.infix_cons (hinf p hp)

theorem mem_splitSlash_sub {l p : List Char} (h : p ∈ splitSlash l) : p <:+: l := by
  obtain ⟨h', t', hsplit, hpre, hinf⟩ := splitSlash_parts l
  rw [hsplit] at h
  rcases List.mem_cons.mp h with rfl | h
  · exact hpre.isInfix
  · exact hinf p h

theorem getLast?_cons_ne_nil {a : α} {l : List α} (h : l ≠ []) :
    (a :: l).getLast? = l.getLast? := by
  cases l with
  | nil => exact absurd rfl h
  | cons b bs => exact List.getLast?_cons_cons

theorem splitSlash_getLast_of_trailing : ∀ l : List Char,
    l.getLast? = some '/' → (splitSlash l).getLast? = some [] := by
  intro l
  induction l with
  | nil => simp
  | cons c rest ih =>
    intro hlast
    cases rest with
    | nil =>
      simp only [List.getLast?_singleton, Option.some.injEq] at hlast
      subst hlast
      rfl
    | cons b bs =>
      rw [List.getLast?_cons_cons] at hlast
      have hrest := ih hlast
      by_cases hc : c = '/'
      · subst hc
        rw [splitSlash_cons_slash, getLast?_cons_ne_nil (splitSlash_ne_nil (b :: bs))]
        exact hrest
      · cases hs : splitSlash (b :: bs) with
        | nil => exact absurd hs (splitSlash_ne_nil (b :: bs))
        | cons h' t' =>
          rw [splitSlash_cons_ne hc hs]
          rw [hs] at hrest
          cases t' with
          | nil =>
            simp only [List.getLast?_singleton, Option.some.injEq] at hrest
            subst hrest
            exact absurd (splitSlash_eq_single_nil hs) (by simp)
          | cons u us =>
            rw [List.getLast?_cons_cons] at hrest ⊢
            exact hrest

theorem splitSlash_of_no_slash : ∀ l : List Char, '/' ∉ l → splitSlash l = [l] := by
  intro l
  induction l with
  | nil => intro _; rfl
  | cons c rest ih =>
    intro h
    have hc : c ≠ '/' := fun hc => h (hc ▸ List.mem_cons_self c rest)
    have hrest : '/' ∉ rest := fun hr => h (List.mem_cons_of_mem c hr)
    exact splitSlash_cons_ne hc (ih hrest)

theorem two_le_splitSlash_length : ∀ l : List Char, '/' ∈ l → 2 ≤ (splitSlash l).length := by
  intro l
  induction l with
  | nil => simp
  | cons c rest ih =>
    intro h
    by_cases hc : c = '/'
    · subst hc
      rw [splitSlash_cons_slash, List.length_cons]
      have := List.length_pos.mpr (splitSlash_ne_nil rest)
      omega
    · have hmem : '/' ∈ rest := by
        rcases List.mem_cons.mp h with h | h
        · exact absurd h.symm hc
        · exact h
      have h2 := ih hmem
      cases hs : splitSlash rest with
      | nil => exact absurd hs (splitSlash_ne_nil rest)
      | cons h' t' =>
        rw [splitSlash_cons_ne hc hs]
        rw [hs] at h2
        simpa using h2

theorem dropWhile_eq_self_of_head {p : α → Bool} {l : List α}
    (h : ∀ a, l.head? = some a → p a = false) : l.dropWhile p = l := by
  cases l with
  | nil => rfl
  | cons a as =>
    rw [List.dropWhile_cons, h a rfl]
    simp

theorem dropWhile_eq_self_of_all {p : α → Bool} {l : List α}
    (h : ∀ a ∈ l, p a = false) : l.dropWhile p = l := by
  cases l with
  | nil => rfl
  | cons a as =>
    rw [List.dropWhile_cons, h a (List.mem_cons_self a as)]
    simp

theorem head?_dropWhile {p : α → Bool} :
    ∀ l : List α, ∀ a, (l.dropWhile p).head? = some a → p a = false := by
  intro l
  induction l with
  | nil => simp
  | cons b bs ih =>
    intro a h
    rw [List.dropWhile_cons] at h
    by_cases hp : p b = true
    · rw [if_pos hp] at h
      exact ih a h
    · rw [if_neg hp] at h
      simp only [List.head?_cons, Option.some.injEq] at h
      subst h
      exact Bool.not_eq_true _ ▸ hp

/-! Character-class facts used to relate the regex characters to the
stripping operations. -/

theorem isSpace_cases {c : Char} (h : isSpace c = true) :
    c = ' ' ∨ c = '\t' ∨ c = '\n' ∨ c = '\x0d' ∨ c = '\x0b' ∨ c = '\x0c' := by
  simp only [isSpace, Bool.or_eq_true, beq_iff_eq] at h
  tauto

theorem isC2_not_space {c : Char} (h : isC2 c = true) : isSpace c = false := by
  by_contra hs
  rw [Bool.not_eq_false] at hs
  rcases isSpace_cases hs with rfl | rfl | rfl | rfl | rfl | rfl <;>
    exact absurd h (by decide)

theorem isC2_not_backslash {c : Char} (h : isC2 c = true) : c ≠ '\\' :=
  fun heq => absurd (heq ▸ h) (by decide)

theorem isC1_not_slash {c : Char} (h : isC1 c = true) : c ≠ '/' :=
  fun heq => absurd (heq ▸ h) (by decide)

theorem isC1_isC2 {c : Char} (h : isC1 c = true) : isC2 c = true := by
  simp [isC2, h]

theorem isPidChar_not_space {c : Char} (h : isPidChar c = true) : isSpace c = false := by
  by_contra hs
  rw [Bool.not_eq_false] at hs
  rcases isSpace_cases hs with rfl | rfl | rfl | rfl | rfl | rfl <;>
    exact absurd h (by decide)

theorem pyStripL_eq_self {l : List Char} (h : ∀ c ∈ l, isSpace c = false) :
    pyStripL l = l := by
  unfold pyStripL
  rw [dropWhile_eq_self_of_all h,
    dropWhile_eq_self_of_all (fun a ha => h a (List.mem_reverse.mp ha)),
    List.reverse_reverse]

theorem replBackslashL_eq_self {l : List Char} (h : ∀ c ∈ l, c ≠ '\\') :
    replBackslashL l = l := by
  unfold replBackslashL
  rw [show l.map (fun c => if c = '\\' then '/' else c) = l.map id from
    List.map_congr_left (fun a ha => if_neg (h a ha)), List.map_id]

theorem stripSlashL_eq_self {l : List Char}
    (hh : ∀ a, l.head? = some a → a ≠ '/') (ht : ∀ a, l.getLast? = some a → a ≠ '/') :
    stripSlashL l = l := by
  unfold stripSlashL
  rw [dropWhile_eq_self_of_head (fun a ha => beq_eq_false_iff_ne.mpr (hh a ha))]
  rw [dropWhile_eq_self_of_head (fun a ha => by
    rw [List.head?_reverse] at ha
    exact beq_eq_false_iff_ne.mpr (ht a ha))]
  exact List.reverse_reverse l

theorem pyStripL_getLast_not_space {l : List Char} {a : Char}
    (h : (pyStripL l).getLast? = some a) : isSpace a = false := by
  unfold pyStripL at h
  rw [List.getLast?_reverse] at h
  exact head?_dropWhile _ a h

theorem vfCore_all {l : List Char} (h : vfCore l = true) :
    (∀ c ∈ l, isC2 c = true) ∧ (∀ a, l.head? = some a → isC1 a = true) ∧ l ≠ [] := by
  cases l with
  | nil => exact absurd h (by decide)
  | cons c rest =>
    simp only [vfCore, Bool.and_eq_true, List.all_eq_true] at h
    refine ⟨?_, ?_, by simp⟩
    · intro x hx
      rcases List.mem_cons.mp hx with rfl | hx
      · exact isC1_isC2 h.1.1
      · exact h.1.2 x hx
    · intro a ha
      simp only [List.head?_cons, Option.some.injEq] at ha
      subst ha
      exact h.1.1

/-! Unfolding characterizations of the validators. -/

theorem validate_filename_ok_iff {s r : String} :
    validate_filename s = .ok r ↔
      s ≠ "" ∧ normFilenameL s ≠ [] ∧
        FORBIDDEN_PATTERNS.any (fun p => hasSub p (normFilenameL s)) = false ∧
        vfMatch (normFilenameL s) = true ∧
        (splitSlash (normFilenameL s)).all componentOk = true ∧
        matches_ignore_pattern (ofL (normFilenameL s)) = false ∧
        r = ofL (normFilenameL s) := by
  constructor
  · intro h
    unfold validate_filename at h
    by_cases h1 : s = ""
    · rw [if_pos h1] at h; exact Res.noConfusion h
    rw [if_neg h1] at h
    by_cases h2 : normFilenameL s = []
    · rw [if_pos h2] at h; exact Res.noConfusion h
    rw [if_neg h2] at h
    by_cases h3 : FORBIDDEN_PATTERNS.any (fun p => hasSub p (normFilenameL s)) = true
    · rw [if_pos h3] at h; exact Res.noConfusion h
    rw [if_neg h3] at h
    by_cases h4 : vfMatch (normFilenameL s) = true
    · rw [if_neg (not_not_intro h4)] at h
      by_cases h5 : (splitSlash (normFilenameL s)).all componentOk = true
      · rw [if_neg (not_not_intro h5)] at h
        by_cases h6 : matches_ignore_pattern (ofL (normFilenameL s)) = true
        · rw [if_pos h6] at h; exact Res.noConfusion h
        · rw [if_neg h6] at h
          injection h with h
          exact ⟨h1, h2, Bool.not_eq_true _ ▸ h3, h4, h5, Bool.not_eq_true _ ▸ h6, h.symm⟩
      · rw [if_pos h5] at h; exact Res.noConfusion h
    · rw [if_pos h4] at h; exact Res.noConfusion h
  · rintro ⟨h1, h2, h3, h4, h5, h6, rfl⟩
    unfold validate_filename
    rw [if_neg h1, if_neg h2,
      if_neg (fun hx => Bool.false_ne_true (h3 ▸ hx)),
      if_neg (not_not_intro h4), if_neg (not_not_intro h5),
      if_neg (fun hx => Bool.false_ne_true (h6 ▸ hx))]

theorem validate_project_id_ok_iff {s r : String} :
    validate_project_id s = .ok r ↔
      s ≠ "" ∧ pidMatch (pyStripL s.toList) = true ∧
        ((pyStripL s.toList).head? == some '-' ||
          (pyStripL s.toList).head? == some '.') = false ∧
        RESERVED_NAMES.contains (ofL (lowerL (pyStripL s.toList))) = false ∧
        r = ofL (pyStripL s.toList) := by
  constructor
  · intro h
    unfold validate_project_id at h
    by_cases h1 : s = ""
    · rw [if_pos h1] at h; exact Res.noConfusion h
    rw [if_neg h1] at h
    by_cases h2 : pidMatch (pyStripL s.toList) = true
    · rw [if_neg (not_not_intro h2)] at h
      by_cases h3 : ((pyStripL s.toList).head? == some '-' ||
          (pyStripL s.toList).head? == some '.') = true
      · rw [if_pos h3] at h; exact Res.noConfusion h
      rw [if_neg h3] at h
      by_cases h4 : RESERVED_NAMES.contains (ofL (lowerL (pyStripL s.toList))) = true
      · rw [if_pos h4] at h; exact Res.noConfusion h
      · rw [if_neg h4] at h
        injection h with h
        exact ⟨h1, h2, Bool.not_eq_true _ ▸ h3, Bool.not_eq_true _ ▸ h4, h.symm⟩
    · rw [if_pos h2] at h; exact Res.noConfusion h
  · rintro ⟨h1, h2, h3, h4, rfl⟩
    unfold validate_project_id
    rw [if_neg h1, if_neg (not_not_intro h2),
      if_neg (fun hx => Bool.false_ne_true (h3 ▸ hx)),
      if_neg (fun hx => Bool.false_ne_true (h4 ▸ hx))]

theorem validate_project_id_error_format {s : String} {e : Err}
    (h : validate_project_id s = .error e) : e = .format := by
  unfold validate_project_id at h
  split_ifs at h <;> simp_all

theorem validate_filename_error_kinds {s : String} {e : Err}
    (h : validate_filename s = .error e) : e = .format ∨ e = .security := by
  unfold validate_filename at h
  split_ifs at h <;> simp_all

theorem toList_ofL (l : List Char) : (ofL l).toList = l := rfl

theorem ofL_eq_empty_iff {l : List Char} : ofL l = "" ↔ l = [] := by
  constructor
  · intro h
    exact congrArg String.data h
  · intro h
    rw [h]
    rfl

theorem mem_of_getLast?_eq {l : List α} {a : α} (h : l.getLast? = some a) : a ∈ l := by
  obtain ⟨hne, rfl⟩ := List.mem_getLast?_eq_getLast (show a ∈ l.getLast? from h)
  exact List.getLast_mem hne

theorem vfMatch_chars {l : List Char} (h : vfMatch l = true) :
    ∀ c ∈ l, isC2 c = true ∨ c = '\n' := by
  intro c hc
  rcases Bool.or_eq_true_iff.mp h with hcore | hnl
  · exact Or.inl ((vfCore_all hcore).1 c hc)
  · obtain ⟨hlast, hcore'⟩ := Bool.and_eq_true_iff.mp hnl
    have hl : l.dropLast ++ ['\n'] = l :=
      List.dropLast_append_getLast? '\n' (beq_iff_eq.mp hlast)
    rw [← hl] at hc
    rcases List.mem_append.mp hc with hc | hc
    · exact Or.inl ((vfCore_all hcore').1 c hc)
    · exact Or.inr (List.mem_singleton.mp hc)

theorem vfCore_of_vfMatch_no_newline {l : List Char} (h : vfMatch l = true)
    (hnl : l.getLast? ≠ some '\n') : vfCore l = true := by
  rcases Bool.or_eq_true_iff.mp h with hc | hc
  · exact hc
  · obtain ⟨hlast, _⟩ := Bool.and_eq_true_iff.mp hc
    exact absurd (beq_iff_eq.mp hlast) hnl

theorem pidMatch_pyStripL (l : List Char) :
    pidMatch (pyStripL l) = pidCore (pyStripL l) := by
  have hb : ((pyStripL l).getLast? == some '\n') = false := by
    cases ht : (pyStripL l).getLast? with
    | none => rfl
    | some a =>
      have hsp := pyStripL_getLast_not_space ht
      have hne : a ≠ '\n' := fun he => absurd (he ▸ hsp) (by decide)
      exact beq_eq_false_iff_ne.mpr (by simpa using hne)
  unfold pidMatch
  rw [hb]
  simp

theorem normFilenameL_of_valid {f : List Char} (hcore : vfCore f = true)
    (hparts : (splitSlash f).all componentOk = true) :
    normFilenameL (ofL f) = f := by
  have hchars := vfCore_all hcore
  unfold normFilenameL
  rw [toList_ofL,
    pyStripL_eq_self (fun c hc => isC2_not_space (hchars.1 c hc)),
    replBackslashL_eq_self (fun c hc => isC2_not_backslash (hchars.1 c hc))]
  apply stripSlashL_eq_self
  · intro a ha
    exact isC1_not_slash (hchars.2.1 a ha)
  · intro a ha heq
    subst heq
    have hmem : [] ∈ splitSlash f := mem_of_getLast?_eq (splitSlash_getLast_of_trailing f ha)
    exact absurd (List.all_eq_true.mp hparts _ hmem) (by decide)

/-- C2: for every input accepted by `validate_filename`, the returned
relative filename contains no `..` substring, no null byte, and no
backslash character. -/
theorem claim_C2 (s r : String) (h : validate_filename s = .ok r) :
    hasSub ['.', '.'] r.toList = false ∧ '\x00' ∉ r.toList ∧ '\\' ∉ r.toList := by
  obtain ⟨h1, h2, h3, h4, h5, h6, hr⟩ := validate_filename_ok_iff.mp h
  subst hr
  rw [toList_ofL]
  simp only [FORBIDDEN_PATTERNS, List.any_cons, List.any_nil,
    Bool.or_eq_false_iff] at h3
  refine ⟨h3.1, ?_, ?_⟩
  · intro hm
    exact Bool.noConfusion (h3.2.1 ▸ hasSub_singleton_iff.mpr hm)
  · intro hm
    rcases vfMatch_chars h4 '\\' hm with hch | hch
    · exact isC2_not_backslash hch rfl
    · exact absurd hch (by decide)

/-- C2 witness: a concrete accepted filename. -/
theorem claim_C2_witness :
    validate_filename "main.py" = .ok "main.py" ∧
      (hasSub ['.', '.'] "main.py".toList = false ∧
        '\x00' ∉ "main.py".toList ∧ '\\' ∉ "main.py".toList) :=
  ⟨by decide, claim_C2 "main.py" "main.py" (by decide)⟩

/-- C3 counterexample: `validate_filename` is not idempotent as claimed.
The Python `$` anchor of `VALID_FILENAME` also matches just before a
trailing newline, so the input `"abc\n/"` is accepted with result
`"abc\n"`, yet re-validating `"abc\n"` strips the newline and returns
`"abc"`, a different value. -/
theorem claim_C3_counterexample :
    validate_filename "abc\n/" = .ok "abc\n" ∧
      validate_filename "abc\n" = .ok "abc" ∧ ("abc" : String) ≠ "abc\n" :=
  ⟨by decide, by decide, by decide⟩

/-- C3 amended: `validate_filename` is idempotent on every accepted
result that does not end with a newline character: if it succeeds on `s`
with result `r` and `r` does not end in a newline, then running it on
`r` succeeds and returns `r` itself. -/
theorem claim_C3 (s r : String) (h : validate_filename s = .ok r)
    (hnl : r.toList.getLast? ≠ some '\n') : validate_filename r = .ok r := by
  obtain ⟨h1, h2, h3, h4, h5, h6, hr⟩ := validate_filename_ok_iff.mp h
  subst hr
  have hcore : vfCore (normFilenameL s) = true :=
    vfCore_of_vfMatch_no_newline h4 (by rw [toList_ofL] at hnl; exact hnl)
  have hfix : normFilenameL (ofL (normFilenameL s)) = normFilenameL s :=
    normFilenameL_of_valid hcore h5
  apply validate_filename_ok_iff.mpr
  refine ⟨?_, ?_, ?_, ?_, ?_, ?_, ?_⟩
  · intro he
    exact h2 (ofL_eq_empty_iff.mp he)
  · rw [hfix]; exact h2
  · rw [hfix]; exact h3
  · rw [hfix]; exact h4
  · rw [hfix]; exact h5
  · rw [hfix]; exact h6
  · rw [hfix]

/-- C3 witness: the input `"/a.py"` normalizes to the distinct accepted
value `"a.py"`, on which validation is a fixed point. -/
theorem claim_C3_witness : validate_filename "a.py" = .ok "a.py" :=
  claim_C3 "/a.py" "a.py" (by decide) (by decide)

/-- C5 counterexample: the corpus member `COM1.txt` is not rejected at
all — the reserved-name check compares whole path components
case-insensitively against the bare device names, and `com1.txt` is not
in that set, so the filename is accepted. -/
theorem claim_C5_counterexample :
    validate_filename "COM1.txt" = .ok "COM1.txt" := by decide

/-- C5 amended: the three traversal members of the attack corpus are
rejected with a security error; `con` is rejected, but by the
reserved-name rule, which raises the format kind, not the security kind;
and `COM1.txt` is accepted since the reserved-name comparison matches
entire components only.  The two error kinds are distinct. -/
theorem claim_C5 :
    validate_filename "../../etc/passwd" = .error .security ∧
      validate_filename "a/../../b" = .error .security ∧
      validate_filename "..\\..\\windows\\system32\\x" = .error .security ∧
      validate_filename "con" = .error .format ∧
      validate_filename "COM1.txt" = .ok "COM1.txt" ∧
      Err.security ≠ Err.format :=
  ⟨by decide, by decide, by decide, by decide, by decide, by decide⟩

/-- C7: `validate_project_id` accepts exactly the inputs whose trimmed
form matches the 3–64 character class, does not start with `-` or `.`,
and is not a reserved device name; it returns the trimmed string, every
rejection is a format error, and the four corpus examples behave as
stated. -/
theorem claim_C7 :
    (∀ s : String,
      (validate_project_id s = .ok (pyStrip s) ↔
        (pidCore (pyStripL s.toList) = true ∧
          (pyStripL s.toList).head? ≠ some '-' ∧
          (pyStripL s.toList).head? ≠ some '.' ∧
          RESERVED_NAMES.contains (ofL (lowerL (pyStripL s.toList))) = false)) ∧
      (∀ r, validate_project_id s = .ok r → r = pyStrip s) ∧
      (∀ e, validate_project_id s = .error e → e = .format)) ∧
    validate_project_id "ab" = .error .format ∧
    validate_project_id "abc" = .ok "abc" ∧
    validate_project_id "-abc" = .error .format ∧
    validate_project_id "NUL" = .error .format := by
  refine ⟨?_, by decide, by decide, by decide, by decide⟩
  intro s
  refine ⟨?_, ?_, fun e he => validate_project_id_error_format he⟩
  · constructor
    · intro h
      obtain ⟨h1, h2, h3, h4, _⟩ := validate_project_id_ok_iff.mp h
      rw [pidMatch_pyStripL] at h2
      simp only [Bool.or_eq_false_iff, beq_eq_false_iff_ne] at h3
      exact ⟨h2, h3.1, h3.2, h4⟩
    · rintro ⟨h1, h2, h3, h4⟩
      apply validate_project_id_ok_iff.mpr
      refine ⟨?_, ?_, ?_, h4, rfl⟩
      · intro he
        subst he
        exact absurd h1 (by decide)
      · rw [pidMatch_pyStripL]
        exact h1
      · simp only [Bool.or_eq_false_iff, beq_eq_false_iff_ne]
        exact ⟨h2, h3⟩
  · intro r h
    exact (validate_project_id_ok_iff.mp h).2.2.2.2

/-- C7 witness: a concrete accepted project identifier. -/
theorem claim_C7_witness : validate_project_id "proj_1" = .ok (pyStrip "proj_1") :=
  (claim_C7.1 "proj_1").1.mpr (by decide)

/-- C9 counterexample: the normalized form of `"a..b/id_rsa"` matches
the ignore pattern `id_rsa` at the segment granularity, but the input is
rejected with a security error (the `..` forbidden-pattern check fires
first), not with a format failure naming the blocked pattern. -/
theorem claim_C9_counterexample :
    matches_ignore_pattern (ofL (normFilenameL "a..b/id_rsa")) = true ∧
      validate_filename "a..b/id_rsa" = .error .security ∧
      Err.security ≠ Err.format :=
  ⟨by decide, by decide, by decide⟩

/-- C9 amended: every filename whose normalized form matches an ignore
pattern (the matcher checks the full path, each segment, and the final
segment) is rejected by `validate_filename`; when the rejection happens
at the ignore-pattern step it is a format failure, but an input that
also violates an earlier security rule (such as containing `..`) is
rejected earlier with a security error.  The three corpus members
`.env`, `id_rsa` and `secret.pem` are all rejected with format errors. -/
theorem claim_C9 :
    (∀ s : String, matches_ignore_pattern (ofL (normFilenameL s)) = true →
      ∃ e, validate_filename s = .error e) ∧
    validate_filename ".env" = .error .format ∧
    validate_filename "id_rsa" = .error .format ∧
    validate_filename "secret.pem" = .error .format := by
  refine ⟨?_, by decide, by decide, by decide⟩
  intro s hm
  cases hv : validate_filename s with
  | error e => exact ⟨e, rfl⟩
  | ok r =>
    have h6 := (validate_filename_ok_iff.mp hv).2.2.2.2.2.1
    exact absurd hm (by rw [h6]; exact Bool.false_ne_true)

/-- C9 witness: a segment-granularity match that is rejected. -/
theorem claim_C9_witness :
    matches_ignore_pattern (ofL (normFilenameL "keys/id_rsa")) = true ∧
      (∃ e, validate_filename "keys/id_rsa" = .error e) :=
  ⟨by decide, claim_C9.1 "keys/id_rsa" (by decide)⟩

/-! Lemmas about path resolution and the symlink walk. -/

theorem resolveStep_append (fs : FS) :
    ∀ (fuel : Nat) (acc xs ys : List String),
      resolveStep fs fuel acc (xs ++ ys) =
        (match resolveStep fs fuel acc xs with
         | none => none
         | some (a, f) => resolveStep fs f a ys) := by
  intro fuel
  induction fuel with
  | zero =>
    intro acc xs ys
    cases xs with
    | nil => rfl
    | cons c xs' => rfl
  | succ f ih =>
    intro acc xs ys
    cases xs with
    | nil => rfl
    | cons c xs' =>
      simp only [List.cons_append, resolveStep, List.append_eq]
      by_cases h1 : c = "."
      · rw [if_pos h1, if_pos h1, ih]
      rw [if_neg h1, if_neg h1]
      by_cases h2 : c = ".."
      · rw [if_pos h2, if_pos h2, ih]
      rw [if_neg h2, if_neg h2]
      cases hl : fs.link (acc ++ [c]) with
      | none =>
        dsimp only
        rw [ih]
      | some t =>
        dsimp only
        rw [← List.append_assoc, ih]

theorem resolve_pre_of_append {fs : FS} {a b r : List String}
    (h : resolve fs (a ++ b) = some r) : ∃ q, resolve fs a = some q := by
  unfold resolve at h
  rw [resolveStep_append fs resolveFuel [] a b] at h
  cases hq : resolveStep fs resolveFuel [] a with
  | none =>
    simp only [hq] at h
    exact absurd h (by simp)
  | some p =>
    refine ⟨p.1, ?_⟩
    unfold resolve
    rw [hq]
    rfl

theorem is_symlink_concat {fs : FS} {u q : List String} {c : String}
    (hq : resolve fs u = some q) :
    is_symlink fs (u ++ [c]) = (fs.link (q ++ [c])).isSome := by
  simp only [is_symlink, List.getLast?_concat, List.dropLast_concat, hq]

theorem resolve_chain (fs : FS) :
    ∀ (f u q : List String) (fl : Nat) (r : List String) (fl' : Nat),
      resolveStep fs resolveFuel [] u = some (q, fl) →
      resolveStep fs fl q f = some (r, fl') →
      (∀ x ∈ f, x ≠ "." ∧ x ≠ "..") →
      (∀ pre x post, f = pre ++ x :: post → is_symlink fs (u ++ (pre ++ [x])) = false) →
      r = q ++ f := by
  intro f
  induction f with
  | nil =>
    intro u q fl r fl' _ hf _ _
    simp only [resolveStep, Option.some.injEq, Prod.mk.injEq] at hf
    rw [← hf.1, List.append_nil]
  | cons c f' ih =>
    intro u q fl r fl' hu hf hdots hsym
    have hc := hdots c (List.mem_cons_self c f')
    cases fl with
    | zero => exact absurd hf (by simp [resolveStep])
    | succ g =>
      have hsym0 : is_symlink fs (u ++ [c]) = false := by
        have h0 := hsym [] c f' rfl
        simpa using h0
      have hq : resolve fs u = some q := by
        unfold resolve
        rw [hu]
        rfl
      have hlink : fs.link (q ++ [c]) = none := by
        apply Option.not_isSome_iff_eq_none.mp
        rw [is_symlink_concat hq] at hsym0
        simp [hsym0]
      simp only [resolveStep, hc.1, hc.2, if_false, hlink] at hf
      have hu' : resolveStep fs resolveFuel [] (u ++ [c]) = some (q ++ [c], g) := by
        rw [resolveStep_append fs resolveFuel [] u [c], hu]
        simp only [resolveStep, hc.1, hc.2, if_false, hlink]
      have hr := ih (u ++ [c]) (q ++ [c]) g r fl' hu' hf
        (fun x hx => hdots x (List.mem_cons_of_mem _ hx))
        (by
          intro pre x post hpre
          have h1 := hsym (c :: pre) x post (by rw [hpre]; rfl)
          have h2 : u ++ (c :: pre ++ [x]) = (u ++ [c]) ++ (pre ++ [x]) := by
            simp
          rw [h2] at h1
          exact h1)
      rw [hr, List.append_assoc]
      rfl

theorem walkF_false_pre (fs : FS) (root : List String) :
    ∀ (n : Nat) (cur : List String), cur.length < n → walkF fs root n cur = false →
      ∀ u, u <+: cur → root.length < u.length → is_symlink fs u = false := by
  intro n
  induction n with
  | zero =>
    intro cur h
    exact absurd h (Nat.not_lt_zero _)
  | succ m ih =>
    intro cur hlen hw u hpre hulen
    simp only [walkF] at hw
    by_cases h1 : cur = root
    · subst h1
      have := hpre.length_le
      omega
    rw [if_neg h1] at hw
    by_cases h2 : is_symlink fs cur = true
    · rw [if_pos h2] at hw
      exact absurd hw (by simp)
    have h2' : is_symlink fs cur = false := by
      revert h2
      cases is_symlink fs cur <;> simp
    rw [if_neg h2] at hw
    by_cases hu : u = cur
    · subst hu
      exact h2'
    have hlt : u.length < cur.length :=
      lt_of_le_of_ne hpre.length_le (fun he => hu (hpre.eq_of_length he))
    by_cases h3 : cur.dropLast = cur
    · have hc := congrArg List.length h3
      rw [List.length_dropLast] at hc
      omega
    rw [if_neg h3] at hw
    apply ih cur.dropLast ?_ hw u ?_ hulen
    · rw [List.length_dropLast]
      omega
    · rw [List.prefix_iff_eq_take] at hpre ⊢
      rw [List.dropLast_eq_take, List.take_take]
      rw [show min u.length (cur.length - 1) = u.length by omega]
      exact hpre

theorem walkHasSymlink_true_of {fs : FS} {root cur : List String}
    (hne : cur ≠ root) (hs : is_symlink fs cur = true) :
    walkHasSymlink fs root cur = true := by
  unfold walkHasSymlink
  simp only [walkF]
  rw [if_neg hne, if_pos hs]

theorem splitSlashStr_ne_nil (s : String) : splitSlashStr s ≠ [] := by
  unfold splitSlashStr
  intro h
  exact splitSlash_ne_nil s.toList (List.map_eq_nil_iff.mp h)

theorem validated_parts {s f : String} (hf : validate_filename s = .ok f) :
    ∀ x ∈ splitSlashStr f, x ≠ "." ∧ x ≠ ".." := by
  obtain ⟨h1, h2, h3, h4, h5, h6, hr⟩ := validate_filename_ok_iff.mp hf
  subst hr
  intro x hx
  obtain ⟨p, hp, rfl⟩ := List.mem_map.mp hx
  rw [toList_ofL] at hp
  constructor
  · intro he
    have hpe : p = ['.'] := congrArg String.toList he
    rw [hpe] at hp
    exact absurd (List.all_eq_true.mp h5 _ hp) (by decide)
  · intro he
    have hpe : p = ['.', '.'] := congrArg String.toList he
    rw [hpe] at hp
    simp only [FORBIDDEN_PATTERNS, List.any_cons, List.any_nil,
      Bool.or_eq_false_iff] at h3
    exact Bool.noConfusion (h3.1 ▸ hasSub_iff.mpr (mem_splitSlash_sub hp))

theorem guard_ok_inversion {fs : FS} {d : List String} {pid fn p f : String}
    {r : List String}
    (hp : validate_project_id pid = .ok p) (hf : validate_filename fn = .ok f)
    (he : get_safe_staging_path fs d pid fn = .ok r) :
    ∃ q, resolve fs (projectStagingDir d p ++ splitSlashStr f) = some r ∧
      resolve fs (projectStagingDir d p) = some q ∧ isPreOf q r = true ∧
      walkHasSymlink fs (stagingRoot d)
        (projectStagingDir d p ++ splitSlashStr f) = false := by
  unfold get_safe_staging_path at he
  simp only [hp, hf] at he
  cases hr : resolve fs (projectStagingDir d p ++ splitSlashStr f) with
  | none =>
    simp only [hr] at he
    exact absurd he (by simp)
  | some rt =>
    simp only [hr] at he
    cases hq : resolve fs (projectStagingDir d p) with
    | none =>
      simp only [hq] at he
      exact absurd he (by simp)
    | some q =>
      simp only [hq] at he
      by_cases hpre : isPreOf q rt = true
      · rw [if_neg (not_not_intro hpre)] at he
        by_cases hw : walkHasSymlink fs (stagingRoot d)
            (projectStagingDir d p ++ splitSlashStr f) = true
        · rw [if_pos hw] at he
          exact absurd he (by simp)
        · rw [if_neg hw] at he
          have hrt : rt = r := by
            injection he
          subst hrt
          refine ⟨q, rfl, rfl, hpre, ?_⟩
          revert hw
          cases walkHasSymlink fs (stagingRoot d)
            (projectStagingDir d p ++ splitSlashStr f) <;> simp
      · rw [if_pos hpre] at he
        exact absurd he (by simp)

theorem guard_security_of_walk {fs : FS} {d : List String} {pid fn p f : String}
    (hp : validate_project_id pid = .ok p) (hf : validate_filename fn = .ok f)
    (hw : walkHasSymlink fs (stagingRoot d)
      (projectStagingDir d p ++ splitSlashStr f) = true) :
    get_safe_staging_path fs d pid fn = .error .security := by
  unfold get_safe_staging_path
  simp only [hp, hf]
  cases hr : resolve fs (projectStagingDir d p ++ splitSlashStr f) with
  | none => simp only [hr]
  | some rt =>
    simp only [hr]
    cases hq : resolve fs (projectStagingDir d p) with
    | none =>
      exfalso
      obtain ⟨q, hq'⟩ := resolve_pre_of_append hr
      rw [hq] at hq'
      exact Option.noConfusion hq'
    | some q =>
      simp only [hq]
      by_cases hpre : isPreOf q rt = true
      · rw [if_neg (not_not_intro hpre), if_pos hw]
      · rw [if_pos hpre]

/-- C6: every error of `get_safe_staging_path` carries one of the two
tagged kinds — format or security; in particular the unguarded
`project_staging.resolve()` call (modelled as `Err.raw`) can never fire,
because a successful resolution of the longer candidate path implies the
project directory itself resolves.  The two kinds are distinct. -/
theorem claim_C6 (fs : FS) (d : List String) (pid fn : String) :
    (∀ e, get_safe_staging_path fs d pid fn = .error e →
      e = .format ∨ e = .security) ∧ Err.format ≠ Err.security := by
  refine ⟨?_, by decide⟩
  intro e he
  unfold get_safe_staging_path at he
  cases hv : validate_project_id pid with
  | error e' =>
    simp only [hv] at he
    have : e' = e := by injection he
    subst this
    exact Or.inl (validate_project_id_error_format hv)
  | ok p =>
    simp only [hv] at he
    cases hw : validate_filename fn with
    | error e' =>
      simp only [hw] at he
      have : e' = e := by injection he
      subst this
      exact validate_filename_error_kinds hw
    | ok f =>
      simp only [hw] at he
      cases hr : resolve fs (projectStagingDir d p ++ splitSlashStr f) with
      | none =>
        simp only [hr] at he
        have : Err.security = e := by injection he
        exact Or.inr this.symm
      | some rt =>
        simp only [hr] at he
        cases hq : resolve fs (projectStagingDir d p) with
        | none =>
          exfalso
          obtain ⟨q, hq'⟩ := resolve_pre_of_append hr
          rw [hq] at hq'
          exact Option.noConfusion hq'
        | some q =>
          simp only [hq] at he
          by_cases hpre : isPreOf q rt = true
          · rw [if_neg (not_not_intro hpre)] at he
            by_cases hwk : walkHasSymlink fs (stagingRoot d)
                (projectStagingDir d p ++ splitSlashStr f) = true
            · rw [if_pos hwk] at he
              have : Err.security = e := by injection he
              exact Or.inr this.symm
            · rw [if_neg hwk] at he
              exact absurd he (by simp)
          · rw [if_pos hpre] at he
            have : Err.security = e := by injection he
            exact Or.inr this.symm

/-- C6 witness: a traversal input produces a tagged security error. -/
theorem claim_C6_witness : (Err.security = .format ∨ Err.security = .security) ∧
    Err.format ≠ Err.security :=
  ⟨(claim_C6 fsEmpty ["d"] "abc" "../x").1 .security (by decide),
    (claim_C6 fsEmpty ["d"] "abc" "../x").2⟩

/-- C1: whenever `get_safe_staging_path` returns a path, the returned
resolved path is the resolved project staging directory followed by the
validated filename components — a strict descendant, so it starts with
the resolved project directory followed by a separator; and whenever the
resolved candidate is not an extension of the resolved project
directory, the call fails with a security error instead of returning. -/
theorem claim_C1 (fs : FS) (d : List String) (pid fn p f : String)
    (hp : validate_project_id pid = .ok p) (hf : validate_filename fn = .ok f) :
    (∀ r, get_safe_staging_path fs d pid fn = .ok r →
      ∃ psr, resolve fs (projectStagingDir d p) = some psr ∧
        r = psr ++ splitSlashStr f ∧ splitSlashStr f ≠ []) ∧
    (∀ r psr, resolve fs (projectStagingDir d p ++ splitSlashStr f) = some r →
      resolve fs (projectStagingDir d p) = some psr → ¬ psr <+: r →
      get_safe_staging_path fs d pid fn = .error .security) := by
  constructor
  · intro r he
    obtain ⟨q, hres, hq, hpre, hwalk⟩ := guard_ok_inversion hp hf he
    refine ⟨q, hq, ?_, splitSlashStr_ne_nil f⟩
    unfold resolve at hres
    cases hstep : resolveStep fs resolveFuel []
        (projectStagingDir d p ++ splitSlashStr f) with
    | none =>
      rw [hstep] at hres
      exact absurd hres (by simp)
    | some pr =>
      rw [hstep] at hres
      have hr1 : pr.1 = r := by
        simpa using hres
      rw [resolveStep_append fs resolveFuel [] (projectStagingDir d p)
        (splitSlashStr f)] at hstep
      cases hsp : resolveStep fs resolveFuel [] (projectStagingDir d p) with
      | none =>
        rw [hsp] at hstep
        exact absurd hstep (by simp)
      | some qp =>
        simp only [hsp] at hstep
        have hq1 : qp.1 = q := by
          unfold resolve at hq
          rw [hsp] at hq
          simpa using hq
        rw [hq1] at hstep
        have hsp' : resolveStep fs resolveFuel [] (projectStagingDir d p) =
            some (q, qp.2) := by
          rw [hsp, ← hq1]
        have hwF : walkF fs (stagingRoot d)
            ((projectStagingDir d p ++ splitSlashStr f).length + 1)
            (projectStagingDir d p ++ splitSlashStr f) = false := hwalk
        have hsyms : ∀ pre x post, splitSlashStr f = pre ++ x :: post →
            is_symlink fs (projectStagingDir d p ++ (pre ++ [x])) = false := by
          intro pre x post hparts
          apply walkF_false_pre fs (stagingRoot d) _ _
            (Nat.lt_succ_self _) hwF
          · refine ⟨post, ?_⟩
            rw [hparts]
            simp
          · simp only [projectStagingDir, stagingRoot, List.length_append,
              List.length_cons, List.length_nil]
            omega
        have := resolve_chain fs (splitSlashStr f) (projectStagingDir d p) q
          qp.2 pr.1 pr.2 hsp' hstep
          (fun x hx => validated_parts hf x hx) hsyms
        rw [← hr1, this]
  · intro r psr hr hq hnpre
    unfold get_safe_staging_path
    simp only [hp, hf, hr, hq]
    rw [if_pos (fun hx => hnpre (isPreOf_iff.mp hx))]

/-- C1 witness: a flat filename in a link-free filesystem resolves to a
strict descendant of the project staging directory. -/
theorem claim_C1_witness :
    ∃ psr, resolve fsEmpty (projectStagingDir ["d"] "abc") = some psr ∧
      ["d", "staging", "abc", "main.py"] = psr ++ splitSlashStr "main.py" ∧
      splitSlashStr "main.py" ≠ [] :=
  (claim_C1 fsEmpty ["d"] "abc" "main.py" "abc" "main.py" (by decide) (by decide)).1
    ["d", "staging", "abc", "main.py"] (by decide)

/-- C4: if any directory on the upward walk from the unresolved
candidate to the staging root is a symbolic link, the guard fails with a
security error; consequently no returned path had a symlinked ancestor
on that walk at the time of the check. -/
theorem claim_C4 (fs : FS) (d : List String) (pid fn p f : String)
    (hp : validate_project_id pid = .ok p) (hf : validate_filename fn = .ok f) :
    (walkHasSymlink fs (stagingRoot d)
        (projectStagingDir d p ++ splitSlashStr f) = true →
      get_safe_staging_path fs d pid fn = .error .security) ∧
    (∀ r, get_safe_staging_path fs d pid fn = .ok r →
      walkHasSymlink fs (stagingRoot d)
        (projectStagingDir d p ++ splitSlashStr f) = false) := by
  constructor
  · intro hw
    exact guard_security_of_walk hp hf hw
  · intro r he
    obtain ⟨q, _, _, _, hwk⟩ := guard_ok_inversion hp hf he
    exact hwk

/-- C4 witness: a symlinked intermediate directory inside the project
tree is detected and rejected. -/
theorem claim_C4_witness :
    get_safe_staging_path fsMid ["d"] "abc" "lib/a.py" = .error .security :=
  (claim_C4 fsMid ["d"] "abc" "lib/a.py" "abc" "lib/a.py" (by decide) (by decide)).1
    (by decide)

/-- C10: the symlink check starts at the unresolved candidate itself:
when the final candidate component is a pre-existing symbolic link, the
guard fails with a security error rather than returning a path. -/
theorem claim_C10 (fs : FS) (d : List String) (pid fn p f : String)
    (hp : validate_project_id pid = .ok p) (hf : validate_filename fn = .ok f)
    (hs : is_symlink fs (projectStagingDir d p ++ splitSlashStr f) = true) :
    get_safe_staging_path fs d pid fn = .error .security := by
  apply guard_security_of_walk hp hf
  apply walkHasSymlink_true_of ?_ hs
  intro he
  have hlen := congrArg List.length he
  have hone : 1 ≤ (splitSlashStr f).length :=
    List.length_pos.mpr (splitSlashStr_ne_nil f)
  simp only [projectStagingDir, stagingRoot, List.length_append,
    List.length_cons, List.length_nil] at hlen
  omega

/-- C10 witness: a symlink sitting at the candidate file itself is
rejected. -/
theorem claim_C10_witness :
    get_safe_staging_path fsLeaf ["d"] "abc" "a.py" = .error .security :=
  claim_C10 fsLeaf ["d"] "abc" "a.py" "abc" "a.py" (by decide) (by decide) (by decide)

/-! Lemmas about `replaceAllF` used for the repository-URL validator. -/

theorem replaceAllF_fuel_irrel (p r : List Char) :
    ∀ (m : Nat), ∀ (n : Nat) (l : List Char), l.length ≤ m → l.length ≤ n →
      replaceAllF p r m l = replaceAllF p r n l := by
  intro m
  induction m with
  | zero =>
    intro n l hm _
    have : l = [] := List.length_eq_zero.mp (Nat.le_zero.mp hm)
    subst this
    simp [replaceAllF]
  | succ m' ih =>
    intro n l hm hn
    cases l with
    | nil => simp [replaceAllF]
    | cons c rest =>
      cases n with
      | zero =>
        rw [List.length_cons] at hn
        omega
      | succ n' =>
        by_cases hcond : p ≠ [] ∧ isPreOf p (c :: rest) = true
        · simp only [replaceAllF, if_pos hcond]
          have hp1 : 1 ≤ p.length := List.length_pos.mpr hcond.1
          have hlen : ((c :: rest).drop p.length).length ≤ m' ∧
              ((c :: rest).drop p.length).length ≤ n' := by
            rw [List.length_drop, List.length_cons]
            rw [List.length_cons] at hm hn
            omega
          rw [ih n' _ hlen.1 hlen.2]
        · simp only [replaceAllF, if_neg hcond]
          rw [List.length_cons] at hm hn
          rw [ih n' rest (by omega) (by omega)]

theorem replaceAllL_peel {p t : List Char} (hp : p ≠ []) :
    replaceAllL p [] (p ++ t) = replaceAllL p [] t := by
  unfold replaceAllL
  cases hP : p with
  | nil => exact absurd hP hp
  | cons ph pt =>
    rw [← hP]
    have hlen : (p ++ t).length = (p ++ t).length - 1 + 1 := by
      rw [List.length_append, hP, List.length_cons]
      omega
    rw [hlen]
    have hcons : p ++ t = ph :: (pt ++ t) := by
      rw [hP]
      rfl
    rw [hcons]
    have hcond : p ≠ [] ∧ isPreOf p (ph :: (pt ++ t)) = true := by
      refine ⟨hp, isPreOf_iff.mpr ⟨t, ?_⟩⟩
      rw [← hcons]
    simp only [replaceAllF, if_pos hcond, List.nil_append]
    rw [← hcons, List.drop_left]
    apply replaceAllF_fuel_irrel
    · rw [List.length_append, hP, List.length_cons] at *
      omega
    · exact Nat.le_refl _

theorem replaceAllF_sublist (p : List Char) :
    ∀ (n : Nat) (l : List Char), List.Sublist (replaceAllF p [] n l) l := by
  intro n
  induction n with
  | zero =>
    intro l
    cases l with
    | nil => simp [replaceAllF]
    | cons c rest => simp [replaceAllF]
  | succ n' ih =>
    intro l
    cases l with
    | nil => simp [replaceAllF]
    | cons c rest =>
      by_cases hcond : p ≠ [] ∧ isPreOf p (c :: rest) = true
      · simp only [replaceAllF, if_pos hcond, List.nil_append]
        exact (ih _).trans (List.drop_sublist _ _)
      · simp only [replaceAllF, if_neg hcond]
        exact (ih rest).cons₂ c

/-- C8 counterexample: the input `" https://github.com/o/r"` does not
begin with the literal prefix `https://github.com/` (it begins with a
space), yet `validate_repo_url` trims first and accepts it. -/
theorem claim_C8_counterexample :
    validate_repo_url " https://github.com/o/r" = .ok "https://github.com/o/r" ∧
      isPreOf GH_PRE " https://github.com/o/r".toList = false :=
  ⟨by decide, by decide⟩

/-- C8 amended: after trimming whitespace, `validate_repo_url` rejects
every input whose trimmed form does not begin with the literal prefix
`https://github.com/`, and rejects every input whose trimmed form, after
stripping that prefix and any trailing slashes, has fewer than two
slash-delimited segments; the three corpus examples behave as stated. -/
theorem claim_C8 :
    (∀ s : String, isPreOf GH_PRE (pyStripL s.toList) = false →
      validate_repo_url s = .error .format) ∧
    (∀ s : String,
      (splitSlash (rstripSlashL ((pyStripL s.toList).drop GH_PRE.length))).length < 2 →
      isPreOf GH_PRE (pyStripL s.toList) = true →
      validate_repo_url s = .error .format) ∧
    validate_repo_url "http://github.com/o/r" = .error .format ∧
    validate_repo_url "https://github.com/o" = .error .format ∧
    validate_repo_url "https://github.com/o/r" = .ok "https://github.com/o/r" := by
  refine ⟨?_, ?_, by decide, by decide, by decide⟩
  · intro s h
    unfold validate_repo_url
    by_cases h1 : s = ""
    · rw [if_pos h1]
    rw [if_neg h1, if_pos (fun hx => Bool.false_ne_true (h ▸ hx))]
  · intro s hlen hpre
    unfold validate_repo_url
    by_cases h1 : s = ""
    · rw [if_pos h1]
    rw [if_neg h1, if_neg (not_not_intro hpre)]
    obtain ⟨suf, hsuf⟩ := isPreOf_iff.mp hpre
    have hdrop : (pyStripL s.toList).drop GH_PRE.length = suf := by
      rw [← hsuf, List.drop_left]
    rw [hdrop] at hlen
    have hnoslash : '/' ∉ rstripSlashL suf := by
      intro hmem
      exact absurd (two_le_splitSlash_length _ hmem) (by omega)
    have hsplit : suf = rstripSlashL suf ++ (suf.reverse.takeWhile (· == '/')).reverse := by
      unfold rstripSlashL
      rw [← List.reverse_append, List.takeWhile_append_dropWhile, List.reverse_reverse]
    have hcode : replaceAllL GH_PRE [] (pyStripL s.toList) =
        replaceAllL GH_PRE [] suf := by
      rw [← hsuf, replaceAllL_peel (by decide)]
    have hsub : List.Sublist (replaceAllL GH_PRE [] suf)
        (rstripSlashL suf ++ (suf.reverse.takeWhile (· == '/')).reverse) := by
      rw [← hsplit]
      exact replaceAllF_sublist GH_PRE suf.length suf
    obtain ⟨v1, v2, hv, hv1, hv2⟩ := List.sublist_append_iff.mp hsub
    have hv1ns : '/' ∉ v1 := fun hm => hnoslash (List.Sublist.mem hm hv1)
    have hv2s : ∀ c ∈ v2, (c == '/') = true := by
      intro c hc
      have hcT : c ∈ List.takeWhile (· == '/') suf.reverse :=
        List.mem_reverse.mp (List.Sublist.mem hc hv2)
      have hres := List.mem_takeWhile_imp hcT
      simpa using hres
    have hstrip : rstripSlashL (replaceAllL GH_PRE [] suf) = v1 := by
      rw [hv]
      unfold rstripSlashL
      rw [List.reverse_append, List.dropWhile_append]
      rw [show v2.reverse.dropWhile (· == '/') = [] from
        List.dropWhile_eq_nil_iff.mpr (fun x hx => hv2s x (List.mem_reverse.mp hx))]
      simp only [List.isEmpty_nil, if_true]
      rw [dropWhile_eq_self_of_all (fun a ha =>
        beq_eq_false_iff_ne.mpr (fun he => hv1ns (by
          rw [← he]
          exact List.mem_reverse.mp ha)))]
      exact List.reverse_reverse v1
    rw [if_pos ?_]
    rw [hcode, hstrip, splitSlash_of_no_slash v1 hv1ns]
    simp

/-- C8 witness: a wrong-scheme URL is rejected with a format error. -/
theorem claim_C8_witness : validate_repo_url "ftp://example.com/x" = .error .format :=
  claim_C8.1 "ftp://example.com/x" (by decide)

end Snap
